import Mathlib

/-!
# OSPCommon.h : a verification development

Shallow embedding of the executable parts of `ospray/common/OSPCommon.h`
(`prettyNumber`, `divRoundUp`, the `Assert` macros) together with models of
the two routines the header only declares (`removeArgs`, `init`), whose bodies
live in a translation unit that is not part of the excerpt.

## Arithmetic model used for `prettyNumber`

`prettyNumber` converts its `size_t` argument to `double`, compares it with
`float` literals, divides in `double` and prints with `%.1f`.  All values that
occur are non-negative and either `0` or at least `1`, and every binary64
number that is at least `1` is a multiple of `2^-52`.  A `double` is therefore
represented by the natural number `x * 2^52` (field `scaled`), and every
operation is the IEEE-754 operation in round-to-nearest, ties-to-even:

* `ofSizeT`   : conversion of a 64-bit unsigned integer to binary64,
* `ofFloatLit`: a decimal literal with suffix `f`, rounded to binary32 and then
                promoted (exactly) to binary64,
* `Dbl.div`   : binary64 division of a value by a smaller or equal one,
* `fmt1f`     : `printf("%.1f")`, which rounds the exact binary value to one
                decimal place, ties to even.
-/

namespace ospray

/-! ## Rounding -/

/-- Quotient `a / b` rounded to the nearest natural number, ties to even. -/
def rne (a b : Nat) : Nat :=
  let q := a / b
  let r := a % b
  if 2 * r < b then q
  else if b < 2 * r then q + 1
  else if q % 2 = 0 then q else q + 1

/-- Auxiliary for `ilog2`: halve at most `fuel` times. -/
def ilog2Aux : Nat → Nat → Nat
  | 0, _ => 0
  | fuel + 1, n => if n < 2 then 0 else ilog2Aux fuel (n / 2) + 1

/-- Floor of the binary logarithm (`0` at `0`): the unbiased exponent of a
positive number. -/
def ilog2 (n : Nat) : Nat := ilog2Aux n n

/-- A non-negative binary64 value that is `0` or at least `1`, stored as the
natural number `value * 2^52`. -/
structure Dbl where
  scaled : Nat
deriving DecidableEq, Repr

namespace Dbl

/-- Number of fractional bits of the fixed-point representation. -/
def fracBits : Nat := 52

/-- Round the positive rational `a / b` (with `b ≤ a`) to `p` significant bits
and return the result scaled by `2^52`.  With `e = ⌊log2 (a / b)⌋` the unit in
the last place, scaled, is `2^(52 + e + 1 - p)`. -/
def roundRat (p a b : Nat) : Dbl :=
  let e := ilog2 (a / b)
  let sh := fracBits + e + 1 - p
  -- the significand `a / b * 2^52 / 2^sh`, rounded, then scaled back
  -- (for `p ≤ 53` the subtraction above is exact)
  ⟨rne (a * 2 ^ fracBits) (b * 2 ^ sh) * 2 ^ sh⟩

/-- Binary64 comparison `x >= y`. -/
def ge (x y : Dbl) : Bool := decide (y.scaled ≤ x.scaled)

/-- Binary64 division `x / y` for `0 < y ≤ x`. -/
def div (x y : Dbl) : Dbl := roundRat 53 x.scaled y.scaled

end Dbl

/-- Conversion `size_t -> double` (the initialisation `double val = s`). -/
def ofSizeT (s : Nat) : Dbl :=
  if s = 0 then ⟨0⟩ else Dbl.roundRat 53 s 1

/-- A literal `<m>e<k>f`: the decimal value `m * 10^k` rounded to binary32,
promoted to binary64 for the comparison and the division. -/
def ofFloatLit (m k : Nat) : Dbl := Dbl.roundRat 24 (m * 10 ^ k) 1

/-- Output of `printf("%.1f", x)`: the value in tenths, rounded to nearest with ties to even,
printed as integer part, point, one digit. -/
def fmt1f (x : Dbl) : String :=
  let t := rne (10 * x.scaled) (2 ^ Dbl.fracBits)
  Nat.repr (t / 10) ++ "." ++ Nat.repr (t % 10)

/-- Output of `printf("%lu", s)` for a 64-bit `size_t`. -/
def fmtLu (s : Nat) : String := Nat.repr s

/-! ## `prettyNumber` (OSPCommon.h, lines 226-242) -/

/-- Embedding of `prettyNumber`: the string that `sprintf` writes into `result`. -/
def prettyNumber (s : Nat) : String :=
  let val := ofSizeT s
  if val.ge (ofFloatLit 1 12) then
    fmt1f (val.div (ofFloatLit 1 12)) ++ "T"
  else if val.ge (ofFloatLit 1 9) then
    fmt1f (val.div (ofFloatLit 1 9)) ++ "G"
  else if val.ge (ofFloatLit 1 6) then
    fmt1f (val.div (ofFloatLit 1 6)) ++ "M"
  else if val.ge (ofFloatLit 1 3) then
    fmt1f (val.div (ofFloatLit 1 3)) ++ "K"
  else
    fmtLu s


/-! ## `divRoundUp` (OSPCommon.h, lines 263-264) -/

/-- An integral C++ type `T`: signedness and width in bits. -/
structure IntType where
  signed : Bool
  bits : Nat
deriving DecidableEq, Repr

namespace IntType

/-- Smallest value of the type. -/
def minVal (T : IntType) : Int := if T.signed then -(2 ^ (T.bits - 1)) else 0

/-- Largest value of the type. -/
def maxVal (T : IntType) : Int :=
  if T.signed then 2 ^ (T.bits - 1) - 1 else 2 ^ T.bits - 1

/-- Representable values of the type. -/
def inRange (T : IntType) (x : Int) : Prop := T.minVal ≤ x ∧ x ≤ T.maxVal

instance (T : IntType) (x : Int) : Decidable (T.inRange x) := by
  unfold inRange
  exact inferInstance

/-- Conversion of a mathematical integer to the type (reduction modulo `2^bits`
into the representable range). -/
def wrap (T : IntType) (x : Int) : Int := (x - T.minVal) % 2 ^ T.bits + T.minVal

/-- Type in which the arithmetic of an expression over `T` is carried out:
types narrower than `int` are promoted to `int`. -/
def promote (T : IntType) : IntType := if T.bits < 32 then ⟨true, 32⟩ else T

end IntType

/-- Embedding of `divRoundUp<T>(a, b)`: `(a + (b - T(1))) / b`, with the
arithmetic done in the promoted type, `/` truncating toward zero, and the
quotient converted back to `T`. -/
def divRoundUp (T : IntType) (a b : Int) : Int :=
  let P := T.promote
  T.wrap (Int.tdiv (P.wrap (a + P.wrap (b - T.wrap 1))) b)

/-! ## Assertion macros (OSPCommon.h, lines 190-202) -/

/-- Build mode: `NDEBUG` undefined (development) or defined (release). -/
inductive Build where
  | development
  | release
deriving DecidableEq, Repr

/-- One call `doAssertion(file, line, expr, expl)`; `expl = none` is `NULL`. -/
structure AssertionCall where
  file : String
  line : Int
  expr : String
  expl : Option String
deriving DecidableEq, Repr

/-- The macro `Assert(expr)` expanded at `file`:`line`; `text` is `#expr`,
`cond` the value of `expr`.  The result is the sequence of calls of
`doAssertion` made by the expansion. -/
def Assert (b : Build) (file : String) (line : Int) (text : String) (cond : Bool) :
    List AssertionCall :=
  match b with
  | Build.release => []
  | Build.development => if cond then [] else [⟨file, line, text, none⟩]

/-- The macro `Assert2(expr, expl)` expanded at `file`:`line`. -/
def Assert2 (b : Build) (file : String) (line : Int) (text : String) (cond : Bool)
    (expl : String) : List AssertionCall :=
  match b with
  | Build.release => []
  | Build.development => if cond then [] else [⟨file, line, text, some expl⟩]

/-- The macro `AssertError(errMsg)` expanded at `file`:`line`. -/
def AssertError (b : Build) (file : String) (line : Int) (errMsg : String) :
    List AssertionCall :=
  match b with
  | Build.release => []
  | Build.development => [⟨file, line, errMsg, none⟩]

/-! ## `removeArgs` (declared at OSPCommon.h, line 186) -/

/-- The shifting loop `for (i = from; i < from + count; i++) av[i - howMany] = av[i]`. -/
def shiftArgs (howMany : Nat) : Nat → Nat → List String → List String
  | 0, _, av => av
  | count + 1, i, av => shiftArgs howMany count (i + 1) (av.set (i - howMany) (av.getD i ""))

/-- Modelled from the spec: the body of `removeArgs`, which the header only
declares.  It "mutates an argument list in place, deleting `howMany` consecutive
entries starting at index `where`, shifting later entries left, and decrementing
`argCount` by `howMany`".  The array keeps its storage; the argument list after
the call is its first `argCount - howMany` entries. -/
def removeArgs (ac : Int) (av : List String) (wh howMany : Int) : Int × List String :=
  (ac - howMany,
   shiftArgs howMany.toNat (ac - (wh + howMany)).toNat (wh + howMany).toNat av)

/-- The argument list denoted by a count and an array. -/
def argList (s : Int × List String) : List String := s.2.take s.1.toNat

/-! ## `init` (declared at OSPCommon.h, line 183) and the configuration state -/

/-- The process-wide configuration state (OSPCommon.h, lines 206-212). -/
structure Config where
  logLevel : Nat
  debugMode : Bool
  numThreads : Int
deriving DecidableEq, Repr

/-- Value of one decimal digit character. -/
def digitValue (c : Char) : Option Nat :=
  if c.isDigit then some (c.toNat - 48) else none

/-- Read a non-empty string of decimal digits, most significant first. -/
def parseDigits : List Char → Nat → Option Nat
  | [], acc => some acc
  | c :: cs, acc =>
    match digitValue c with
    | some d => parseDigits cs (10 * acc + d)
    | none => none

/-- The integer `<n>` that follows a flag; `none` when the text is not one. -/
def parseValue (s : String) : Option Nat :=
  if s.data = [] then none else parseDigits s.data 0

/-- Modelled from the spec: the scanning loop of `init`, which the header only
declares.  It "scans the argument list for three recognized flags, applies them
to the process-wide configuration state, and removes each recognized flag (and
its value, if any) from the list via `removeArgs`"; a flag whose value is missing
or is not an integer is reported to the caller (`none`).  `fuel` bounds the
number of iterations. -/
def initLoop : Nat → Config → Int → List String → Nat → Option (Config × Int × List String)
  | 0, _, _, _, _ => none
  | fuel + 1, cfg, ac, av, i =>
    if ac ≤ (i : Int) then some (cfg, ac, av)
    else
      let arg := av.getD i ""
      if arg = "--osp:debug" then
        let r := removeArgs ac av i 1
        initLoop fuel { cfg with debugMode := true } r.1 r.2 i
      else if arg = "--osp:loglevel" then
        if (i : Int) + 1 < ac then
          match parseValue (av.getD (i + 1) "") with
          | some n =>
            let r := removeArgs ac av i 2
            initLoop fuel { cfg with logLevel := n } r.1 r.2 i
          | none => none
        else none
      else if arg = "--osp:numthreads" then
        if (i : Int) + 1 < ac then
          match parseValue (av.getD (i + 1) "") with
          | some n =>
            let r := removeArgs ac av i 2
            initLoop fuel { cfg with numThreads := (n : Int) } r.1 r.2 i
          | none => none
        else none
      else initLoop fuel cfg ac av (i + 1)

/-- The result handed back to the caller: the configuration and the argument
list denoted by the final count and array. -/
def finish : Option (Config × Int × List String) → Option (Config × List String) :=
  Option.map (fun s => (s.1, argList s.2))

/-- Modelled from the spec: `init(argCount, argList)`, the bootstrap entry point
declared in the header.  Returns the configuration written and the argument
list left for the caller, or `none` for malformed bootstrap arguments. -/
def init (cfg : Config) (args : List String) : Option (Config × List String) :=
  finish (initLoop (args.length + 1) cfg args.length args 0)

/-- Put kept arguments in front of the list of a result. -/
def keep (pre : List String) : Option (Config × List String) → Option (Config × List String) :=
  Option.map (fun p => (p.1, pre ++ p.2))

/-- The effect of `init` as the interface table describes it, by recursion on
the argument list: a recognized flag (with its value) is dropped and applied,
any other argument is kept. -/
def initSpec (cfg : Config) : List String → Option (Config × List String)
  | [] => some (cfg, [])
  | a :: rest =>
    if a = "--osp:debug" then initSpec { cfg with debugMode := true } rest
    else if a = "--osp:loglevel" then
      match rest with
      | [] => none
      | v :: rest2 =>
        match parseValue v with
        | some n => initSpec { cfg with logLevel := n } rest2
        | none => none
    else if a = "--osp:numthreads" then
      match rest with
      | [] => none
      | v :: rest2 =>
        match parseValue v with
        | some n => initSpec { cfg with numThreads := (n : Int) } rest2
        | none => none
    else keep [a] (initSpec cfg rest)

/-! ## Reference notions used to state the properties -/

/-- The claimed threshold of `n`: the largest of `10^3, 10^6, 10^9, 10^12` that
is at most `n` (and `1` below a thousand). -/
def threshold (n : Nat) : Nat :=
  if 10 ^ 12 ≤ n then 10 ^ 12
  else if 10 ^ 9 ≤ n then 10 ^ 9
  else if 10 ^ 6 ≤ n then 10 ^ 6
  else if 10 ^ 3 ≤ n then 10 ^ 3
  else 1

/-- The suffix letter that belongs to a threshold. -/
def suffixOf (t : Nat) : String :=
  if t = 10 ^ 12 then "T"
  else if t = 10 ^ 9 then "G"
  else if t = 10 ^ 6 then "M"
  else if t = 10 ^ 3 then "K"
  else ""

/-- The text `out` is `n / t` rounded to a nearest number with one digit after
the decimal point (either neighbour when `n / t` lies exactly half way),
immediately followed by `suffix`: for the number of tenths `d`,
`|d / 10 - n / t| ≤ 1 / 20`. -/
def RendersQuotient (out : String) (n t : Nat) (suffix : String) : Prop :=
  ∃ d : Nat, out = Nat.repr (d / 10) ++ "." ++ Nat.repr (d % 10) ++ suffix ∧
    2 * (d * t) ≤ 2 * (10 * n) + t ∧ 2 * (10 * n) ≤ 2 * (d * t) + t

/-- The flags recognized by `init`. -/
def recognized : List String := ["--osp:loglevel", "--osp:debug", "--osp:numthreads"]

/-- Value denoted by a string of decimal digits. -/
def decimalValue (cs : List Char) : Nat :=
  cs.foldl (fun acc c => 10 * acc + (c.toNat - 48)) 0

end ospray

namespace ospray

/-! ## Facts about the rounding primitives -/

theorem rne_of_dvd (a b : Nat) (hb : 0 < b) (h : b ∣ a) : rne a b = a / b := by
  have hr : a % b = 0 := Nat.mod_eq_zero_of_dvd h
  simp [rne, hr, hb]

theorem rne_mul_le (a b : Nat) (hb : 0 < b) : 2 * (rne a b * b) ≤ 2 * a + b := by
  have hd := Nat.div_add_mod a b
  have hm := Nat.mod_lt a hb
  have hc : b * (a / b) = a / b * b := Nat.mul_comm _ _
  unfold rne
  simp only
  split_ifs <;> (try rw [Nat.add_mul, Nat.one_mul]) <;> omega

theorem le_rne_mul (a b : Nat) (hb : 0 < b) : 2 * a ≤ 2 * (rne a b * b) + b := by
  have hd := Nat.div_add_mod a b
  have hm := Nat.mod_lt a hb
  have hc : b * (a / b) = a / b * b := Nat.mul_comm _ _
  unfold rne
  simp only
  split_ifs <;> (try rw [Nat.add_mul, Nat.one_mul]) <;> omega

theorem ilog2Aux_spec : ∀ (fuel n : Nat), n ≤ fuel → 0 < n →
    2 ^ ilog2Aux fuel n ≤ n ∧ n < 2 ^ (ilog2Aux fuel n + 1)
  | 0, n, h, h0 => by omega
  | fuel + 1, n, h, h0 => by
    unfold ilog2Aux
    by_cases h2 : n < 2
    · simp only [h2, if_true]
      omega
    · simp only [h2, if_false]
      have ih := ilog2Aux_spec fuel (n / 2) (by omega) (by omega)
      rw [Nat.pow_succ, Nat.pow_succ]
      omega

theorem ilog2_spec (n : Nat) (h0 : 0 < n) :
    2 ^ ilog2 n ≤ n ∧ n < 2 ^ (ilog2 n + 1) :=
  ilog2Aux_spec n n (Nat.le_refl n) h0

theorem ilog2_lt_of_lt_pow (n k : Nat) (h0 : 0 < n) (h : n < 2 ^ k) : ilog2 n < k := by
  by_contra hk
  have h1 := (ilog2_spec n h0).1
  have h2 : 2 ^ k ≤ 2 ^ ilog2 n := Nat.pow_le_pow_right (by decide) (by omega)
  omega

/-- Integers below `2^53` convert to binary64 without rounding. -/
theorem ofSizeT_exact (s : Nat) (h : s < 2 ^ 53) : (ofSizeT s).scaled = s * 2 ^ 52 := by
  unfold ofSizeT
  by_cases h0 : s = 0
  · simp [h0]
  · simp only [h0, if_false, Dbl.roundRat, Dbl.fracBits, Nat.div_one, Nat.one_mul]
    have he : ilog2 s < 53 := ilog2_lt_of_lt_pow s 53 (by omega) h
    have hsh : 52 + ilog2 s + 1 - 53 = ilog2 s := by omega
    rw [hsh]
    have hpos : 0 < 2 ^ ilog2 s := Nat.pow_pos (by decide)
    have hdvd : 2 ^ ilog2 s ∣ s * 2 ^ 52 :=
      Dvd.dvd.mul_left (Nat.pow_dvd_pow 2 (by omega)) s
    rw [rne_of_dvd _ _ hpos hdvd]
    exact Nat.div_mul_cancel hdvd

theorem lit_1e3f : (ofFloatLit 1 3).scaled = 1000 * 2 ^ 52 := by decide
theorem lit_1e6f : (ofFloatLit 1 6).scaled = 1000000 * 2 ^ 52 := by decide
theorem lit_1e9f : (ofFloatLit 1 9).scaled = 1000000000 * 2 ^ 52 := by decide
/-- The literal `1e12f` is not `10^12`: the nearest binary32 value is `999999995904`. -/
theorem lit_1e12f : (ofFloatLit 1 12).scaled = 999999995904 * 2 ^ 52 := by decide

end ospray

namespace ospray

/-! ## `prettyNumber`: branch structure -/

/-- For arguments below `2^53` the conversion is exact, so the comparisons are
comparisons of integers with the values of the four literals. -/
theorem prettyNumber_unfold (n : Nat) (h : n < 2 ^ 53) :
    prettyNumber n =
      if 999999995904 ≤ n then
        fmt1f (Dbl.div ⟨n * 2 ^ 52⟩ ⟨999999995904 * 2 ^ 52⟩) ++ "T"
      else if 1000000000 ≤ n then
        fmt1f (Dbl.div ⟨n * 2 ^ 52⟩ ⟨1000000000 * 2 ^ 52⟩) ++ "G"
      else if 1000000 ≤ n then
        fmt1f (Dbl.div ⟨n * 2 ^ 52⟩ ⟨1000000 * 2 ^ 52⟩) ++ "M"
      else if 1000 ≤ n then
        fmt1f (Dbl.div ⟨n * 2 ^ 52⟩ ⟨1000 * 2 ^ 52⟩) ++ "K"
      else Nat.repr n := by
  have hv : ofSizeT n = ⟨n * 2 ^ 52⟩ := by
    have := ofSizeT_exact n h
    cases hx : ofSizeT n
    rw [hx] at this
    simpa using this
  have e12 : ofFloatLit 1 12 = ⟨999999995904 * 2 ^ 52⟩ := by decide
  have e9 : ofFloatLit 1 9 = ⟨1000000000 * 2 ^ 52⟩ := by decide
  have e6 : ofFloatLit 1 6 = ⟨1000000 * 2 ^ 52⟩ := by decide
  have e3 : ofFloatLit 1 3 = ⟨1000 * 2 ^ 52⟩ := by decide
  have c (t : Nat) : (t * 2 ^ 52 ≤ n * 2 ^ 52) = (t ≤ n) := by
    apply propext
    constructor <;> intro hh <;> omega
  unfold prettyNumber
  simp only [hv, e12, e9, e6, e3, Dbl.ge, c, fmtLu, decide_eq_true_eq]

theorem prettyNumber_lt_thousand (n : Nat) (h : n < 1000) : prettyNumber n = Nat.repr n := by
  rw [prettyNumber_unfold n (by omega)]
  have h1 : ¬ 999999995904 ≤ n := by omega
  have h2 : ¬ 1000000000 ≤ n := by omega
  have h3 : ¬ 1000000 ≤ n := by omega
  have h4 : ¬ 1000 ≤ n := by omega
  simp only [h1, h2, h3, h4, if_false]

set_option maxRecDepth 100000 in
theorem repr_lt_thousand : ∀ n, n < 1000 →
    ((Nat.repr n).data.all Char.isDigit = true ∧
     (n ≠ 0 → (Nat.repr n).data.head? ≠ some '0') ∧
     decimalValue (Nat.repr n).data = n) := by
  decide

end ospray

namespace ospray

/-! ## `prettyNumber`: the suffixed branches -/

/-- Binary64 division of an integer by a power of ten `t ∈ {10^3, 10^6, 10^9}`
with quotient below `1024`, printed with `%.1f`: the digits printed are a
nearest value in tenths of the exact quotient. -/
theorem fmt1f_div_nearest (n t : Nat) (ht : t = 1000 ∨ t = 1000000 ∨ t = 1000000000)
    (hlo : t ≤ n) (hhi : n < 1000 * t) (suffix : String) :
    RendersQuotient (fmt1f (Dbl.div ⟨n * 2 ^ 52⟩ ⟨t * 2 ^ 52⟩) ++ suffix) n t suffix := by
  have htpos : 0 < t := by omega
  have hq0 : 0 < n / t := Nat.div_pos hlo htpos
  have hq : n / t < 2 ^ 10 := by
    have : n / t < 1000 := (Nat.div_lt_iff_lt_mul htpos).2 hhi
    omega
  have he : ilog2 (n / t) < 10 := ilog2_lt_of_lt_pow _ _ hq0 hq
  have hS : 2 ^ ilog2 (n / t) ≤ 2 ^ 9 := Nat.pow_le_pow_right (by decide) (by omega)
  have hSpos : 0 < 2 ^ ilog2 (n / t) := Nat.pow_pos (by decide)
  have hdiv : n * 2 ^ 52 / (t * 2 ^ 52) = n / t :=
    Nat.mul_div_mul_right n t (Nat.pow_pos (by decide))
  have hsh : 52 + ilog2 (n / t) + 1 - 53 = ilog2 (n / t) := by omega
  -- the quotient, in units of 2^-52
  obtain ⟨D, hD⟩ : ∃ D, D = (Dbl.div ⟨n * 2 ^ 52⟩ ⟨t * 2 ^ 52⟩).scaled := ⟨_, rfl⟩
  have hDdef : D = rne (n * 2 ^ 52 * 2 ^ 52) (t * 2 ^ 52 * 2 ^ ilog2 (n / t)) *
      2 ^ ilog2 (n / t) := by
    rw [hD]
    simp only [Dbl.div, Dbl.roundRat, Dbl.fracBits, hdiv, hsh]
  have hBpos : 0 < t * 2 ^ 52 * 2 ^ ilog2 (n / t) :=
    Nat.mul_pos (Nat.mul_pos htpos (Nat.pow_pos (by decide))) hSpos
  have hup := rne_mul_le (n * 2 ^ 52 * 2 ^ 52) (t * 2 ^ 52 * 2 ^ ilog2 (n / t)) hBpos
  have hdn := le_rne_mul (n * 2 ^ 52 * 2 ^ 52) (t * 2 ^ 52 * 2 ^ ilog2 (n / t)) hBpos
  have hre : rne (n * 2 ^ 52 * 2 ^ 52) (t * 2 ^ 52 * 2 ^ ilog2 (n / t)) *
      (t * 2 ^ 52 * 2 ^ ilog2 (n / t)) = t * 2 ^ 52 * D := by
    rw [hDdef]; ring
  rw [hre] at hup hdn
  have hup2 := rne_mul_le (10 * D) (2 ^ 52) (Nat.pow_pos (by decide))
  have hdn2 := le_rne_mul (10 * D) (2 ^ 52) (Nat.pow_pos (by decide))
  refine ⟨rne (10 * D) (2 ^ 52), ?_, ?_, ?_⟩
  · rw [hD]; rfl
  · generalize rne (10 * D) (2 ^ 52) = d at hup2 hdn2 ⊢
    generalize 2 ^ ilog2 (n / t) = S at hS hSpos hup hdn
    rcases ht with rfl | rfl | rfl <;> omega
  · generalize rne (10 * D) (2 ^ 52) = d at hup2 hdn2 ⊢
    generalize 2 ^ ilog2 (n / t) = S at hS hSpos hup hdn
    rcases ht with rfl | rfl | rfl <;> omega

end ospray

namespace ospray

/-! ## Size of the formatted text -/

theorem rne_le (a b : Nat) : rne a b ≤ a / b + 1 := by
  unfold rne
  simp only
  split_ifs <;> omega

theorem pow_ilog2_le (m : Nat) : 2 ^ ilog2 m ≤ m + 1 := by
  rcases Nat.eq_zero_or_pos m with h | h
  · subst h
    decide
  · have := (ilog2_spec m h).1
    omega

/-- A crude bound on a value rounded to 53 bits. -/
theorem roundRat_le (a b : Nat) (hb : 0 < b) :
    (Dbl.roundRat 53 a b).scaled ≤ a * 2 ^ 52 + a + 1 := by
  simp only [Dbl.roundRat, Dbl.fracBits]
  have hsh : 52 + ilog2 (a / b) + 1 - 53 = ilog2 (a / b) := by omega
  rw [hsh]
  generalize hS : 2 ^ ilog2 (a / b) = S
  have hS1 : S ≤ a + 1 := by
    have h1 := pow_ilog2_le (a / b)
    have h2 : a / b ≤ a := Nat.div_le_self a b
    omega
  have hSpos : 0 < S := by
    rw [← hS]
    exact Nat.pow_pos (by decide)
  have h3 := rne_le (a * 2 ^ 52) (b * S)
  have h4 : a * 2 ^ 52 / (b * S) * S ≤ a * 2 ^ 52 := by
    calc a * 2 ^ 52 / (b * S) * S
        ≤ a * 2 ^ 52 / S * S :=
          Nat.mul_le_mul_right S (Nat.div_le_div_left (Nat.le_mul_of_pos_left S hb) hSpos)
      _ ≤ a * 2 ^ 52 := Nat.div_mul_le_self _ _
  calc rne (a * 2 ^ 52) (b * S) * S
      ≤ (a * 2 ^ 52 / (b * S) + 1) * S := Nat.mul_le_mul_right S h3
    _ = a * 2 ^ 52 / (b * S) * S + S := by ring
    _ ≤ a * 2 ^ 52 + a + 1 := by omega

theorem ofSizeT_le (n : Nat) : (ofSizeT n).scaled ≤ n * 2 ^ 52 + n + 1 := by
  unfold ofSizeT
  split_ifs
  · exact Nat.zero_le _
  · exact roundRat_le n 1 (by decide)

theorem fmt1f_length (x : Dbl) (h : x.scaled < 2 ^ 170) : (fmt1f x).length ≤ 55 := by
  unfold fmt1f
  simp only [Dbl.fracBits, String.length_append]
  have ht := rne_le (10 * x.scaled) (2 ^ 52)
  have h1 : 10 * x.scaled / 2 ^ 52 ≤ 10 * x.scaled := Nat.div_le_self _ _
  have h2 : rne (10 * x.scaled) (2 ^ 52) / 10 < 10 ^ 53 := by omega
  have h3 : rne (10 * x.scaled) (2 ^ 52) % 10 < 10 ^ 1 := by omega
  have l1 := Nat.repr_length _ 53 (by decide) h2
  have l2 := Nat.repr_length _ 1 (by decide) h3
  have l3 : ".".length = 1 := rfl
  omega

theorem div_lit_lt (n m k : Nat) (h : n < 2 ^ 64) (hk : 0 < (ofFloatLit m k).scaled) :
    ((ofSizeT n).div (ofFloatLit m k)).scaled < 2 ^ 170 := by
  have h1 := ofSizeT_le n
  have h2 := roundRat_le (ofSizeT n).scaled (ofFloatLit m k).scaled hk
  unfold Dbl.div
  omega

end ospray

namespace ospray

/-! ## Claims about `prettyNumber` -/

/-- C1: for every `n < 1000`, `prettyNumber n` is exactly the decimal digits of
`n`: it is the decimal numeral of `n`, every character is a digit (so there is
no suffix letter and no decimal point), there is no leading zero unless `n = 0`,
and the digits denote `n`. -/
theorem prettyNumber_small (n : Nat) (h : n < 1000) :
    prettyNumber n = Nat.repr n ∧
    (prettyNumber n).data.all Char.isDigit = true ∧
    (n ≠ 0 → (prettyNumber n).data.head? ≠ some '0') ∧
    decimalValue (prettyNumber n).data = n := by
  rw [prettyNumber_lt_thousand n h]
  exact ⟨rfl, repr_lt_thousand n h⟩

/-- Witness for C1 at `n = 999`, together with the two examples of the claim. -/
theorem prettyNumber_small_witness :
    (999 < 1000) ∧ prettyNumber 999 = "999" ∧ prettyNumber 0 = "0" ∧
    decimalValue (prettyNumber 999).data = 999 :=
  ⟨by decide, by decide, by decide, (prettyNumber_small 999 (by decide)).2.2.2⟩

/-- C2 (evaluation at the failing input): `999999995904` is below `10^12`, and so is
`999999999999`, yet both are printed with the suffix `T`, because the literal
`1e12f` denotes `999999995904`; the largest argument printed with `G` is
`999999995903`. -/
theorem prettyNumber_T_below_1e12 :
    999999995904 < 10 ^ 12 ∧ prettyNumber 999999995904 = "1.0T" ∧
    prettyNumber 999999999999 = "1.0T" ∧ prettyNumber 999999995903 = "1000.0G" ∧
    (ofFloatLit 1 12).scaled = 999999995904 * 2 ^ 52 := by
  decide

/-- C3 (counterexample): at `n = 10000000709039996927` the function prints
`10000000.8T`, which is not `n / 10^12` rounded to one digit after the point
(that is `10000000.7`), nor `n` divided by the value of `1e12f` so rounded. -/
theorem prettyNumber_not_nearest :
    prettyNumber 10000000709039996927 = "10000000.8T" ∧
    threshold 10000000709039996927 = 10 ^ 12 ∧
    ¬ RendersQuotient (prettyNumber 10000000709039996927) 10000000709039996927
        (threshold 10000000709039996927) (suffixOf (threshold 10000000709039996927)) ∧
    ¬ RendersQuotient (prettyNumber 10000000709039996927) 10000000709039996927
        999999995904 "T" := by
  have hp : prettyNumber 10000000709039996927 = "10000000.8T" := by decide
  have ht : threshold 10000000709039996927 = 10 ^ 12 := by decide
  have hs : suffixOf (10 ^ 12) = "T" := by decide
  refine ⟨hp, ht, ?_, ?_⟩
  · rw [ht, hs, hp]
    rintro ⟨d, hd, h1, h2⟩
    have : d = 100000007 := by omega
    subst this
    revert hd
    decide
  · rw [hp]
    rintro ⟨d, hd, h1, h2⟩
    have : d = 100000007 := by omega
    subst this
    revert hd
    decide

/-- C3 (amended): for every `n` with `1000 ≤ n < 999999995904` (the arguments
printed with `K`, `M` or `G`), `prettyNumber n` is `n` divided by the largest of
`10^3, 10^6, 10^9` that is at most `n`, rounded to a nearest value with one
digit after the decimal point, immediately followed by the suffix letter. -/
theorem prettyNumber_suffixed (n : Nat) (h1 : 1000 ≤ n) (h2 : n < 999999995904) :
    RendersQuotient (prettyNumber n) n (threshold n) (suffixOf (threshold n)) := by
  rw [prettyNumber_unfold n (by omega)]
  have hT : ¬ 999999995904 ≤ n := by omega
  have hT2 : ¬ 10 ^ 12 ≤ n := by omega
  simp only [hT, if_false]
  unfold threshold
  simp only [hT2, if_false]
  by_cases hG : 10 ^ 9 ≤ n
  · have hG2 : 1000000000 ≤ n := by omega
    have hs : suffixOf (10 ^ 9) = "G" := by decide
    simp only [hG, hG2, if_true, hs]
    exact fmt1f_div_nearest n 1000000000 (by omega) hG2 (by omega) "G"
  · have hG2 : ¬ 1000000000 ≤ n := by omega
    by_cases hM : 10 ^ 6 ≤ n
    · have hM2 : 1000000 ≤ n := by omega
      have hs : suffixOf (10 ^ 6) = "M" := by decide
      simp only [hG, hG2, hM, hM2, if_true, if_false, hs]
      exact fmt1f_div_nearest n 1000000 (by omega) hM2 (by omega) "M"
    · have hM2 : ¬ 1000000 ≤ n := by omega
      have hK : 10 ^ 3 ≤ n := by omega
      have hs : suffixOf (10 ^ 3) = "K" := by decide
      simp only [hG, hG2, hM, hM2, hK, h1, if_true, if_false, hs]
      exact fmt1f_div_nearest n 1000 (by omega) h1 (by omega) "K"

/-- Witness for the amended C3 at `n = 1500`, with the three examples of the
claim evaluated. -/
theorem prettyNumber_suffixed_witness :
    prettyNumber 1500 = "1.5K" ∧ prettyNumber 2500000 = "2.5M" ∧
    prettyNumber 1000 = "1.0K" ∧
    RendersQuotient (prettyNumber 1500) 1500 (threshold 1500) (suffixOf (threshold 1500)) :=
  ⟨by decide, by decide, by decide, prettyNumber_suffixed 1500 (by decide) (by decide)⟩

/-- C7 (evaluation at the failing input): `prettyNumber 10000000` is `10.0M`,
not the `10M` of the documentation comment. -/
theorem prettyNumber_ten_million :
    prettyNumber 10000000 = "10.0M" ∧ prettyNumber 10000000 ≠ "10M" := by
  decide

/-- C9: for every 64-bit `n` the text formatted by `prettyNumber` has at most 99
characters, so with its terminator it fits the 100-byte buffer `result`. -/
theorem prettyNumber_fits_buffer (n : Nat) (h : n < 2 ^ 64) :
    (prettyNumber n).length ≤ 99 ∧ (prettyNumber n).length + 1 ≤ 100 := by
  have key : (prettyNumber n).length ≤ 99 := by
    have b12 := fmt1f_length _ (div_lit_lt n 1 12 h (by decide))
    have b9 := fmt1f_length _ (div_lit_lt n 1 9 h (by decide))
    have b6 := fmt1f_length _ (div_lit_lt n 1 6 h (by decide))
    have b3 := fmt1f_length _ (div_lit_lt n 1 3 h (by decide))
    have bl : (fmtLu n).length ≤ 20 :=
      Nat.repr_length n 20 (by decide) (by omega)
    have s1 : "T".length = 1 := rfl
    have s2 : "G".length = 1 := rfl
    have s3 : "M".length = 1 := rfl
    have s4 : "K".length = 1 := rfl
    unfold prettyNumber
    simp only
    split_ifs <;> (try simp only [String.length_append]) <;> omega
  exact ⟨key, by omega⟩

/-- Witness for C9 at the largest 64-bit value. -/
theorem prettyNumber_fits_buffer_witness :
    prettyNumber 18446744073709551615 = "18446744.1T" ∧
    (prettyNumber 18446744073709551615).length ≤ 99 :=
  ⟨by decide, (prettyNumber_fits_buffer 18446744073709551615 (by decide)).1⟩

end ospray

namespace ospray

/-! ## `divRoundUp` -/

theorem IntType.two_pow_bits (T : IntType) (h : 0 < T.bits) :
    (2 : Int) ^ T.bits = 2 * 2 ^ (T.bits - 1) := by
  obtain ⟨k, hk⟩ : ∃ k, T.bits = k + 1 := ⟨T.bits - 1, by omega⟩
  rw [hk, Nat.add_sub_cancel, pow_succ]
  ring

/-- Converting a representable value to the type leaves it unchanged. -/
theorem IntType.wrap_eq (T : IntType) (h : 0 < T.bits) (x : Int) (hx : T.inRange x) :
    T.wrap x = x := by
  have hp := T.two_pow_bits h
  unfold IntType.inRange IntType.minVal IntType.maxVal at hx
  unfold IntType.wrap IntType.minVal
  cases hs : T.signed
  · simp only [hs, Bool.false_eq_true, if_false] at hx ⊢
    rw [Int.emod_eq_of_lt (by omega) (by omega)]
    omega
  · simp only [hs, if_true] at hx ⊢
    rw [Int.emod_eq_of_lt (by omega) (by omega)]
    omega

/-- A type in whose range some `b ≥ 1` lies has at least one bit. -/
theorem IntType.bits_pos (T : IntType) (b : Int) (hb : 1 ≤ b) (hT : T.inRange b) :
    0 < T.bits := by
  by_contra h0
  have h0 : T.bits = 0 := by omega
  unfold IntType.inRange IntType.minVal IntType.maxVal at hT
  rw [h0] at hT
  cases hs : T.signed <;> simp [hs] at hT <;> omega

/-- Non-negative values of `T` are values of the promoted type. -/
theorem IntType.inRange_promote (T : IntType) (x : Int) (h0 : 0 ≤ x) (hx : T.inRange x) :
    T.promote.inRange x := by
  unfold IntType.promote
  split_ifs with hb
  · unfold IntType.inRange IntType.minVal IntType.maxVal at hx ⊢
    simp only [if_true]
    have h31 : (2 : Int) ^ T.bits ≤ 2 ^ 31 :=
      pow_le_pow_right₀ (by decide) (by omega)
    have h30 : (2 : Int) ^ (T.bits - 1) ≤ 2 ^ 31 :=
      pow_le_pow_right₀ (by decide) (by omega)
    have e31 : (2 : Int) ^ (32 - 1) = 2147483648 := by norm_num
    have e31b : (2 : Int) ^ 31 = 2147483648 := by norm_num
    rw [e31]
    rw [e31b] at h31 h30
    cases hs : T.signed <;> simp only [hs, Bool.false_eq_true, if_false, if_true] at hx <;> omega
  · exact hx

theorem IntType.promote_bits_pos (T : IntType) (h : 0 < T.bits) : 0 < T.promote.bits := by
  unfold IntType.promote
  split_ifs
  · decide
  · exact h

theorem IntType.minVal_nonpos (T : IntType) : T.minVal ≤ 0 := by
  unfold IntType.minVal
  split_ifs
  · have : (0 : Int) < 2 ^ (T.bits - 1) := pow_pos (by decide) _
    omega
  · exact le_refl _

/-- Without overflow `divRoundUp` is the mathematical quotient `(a + b - 1) / b`. -/
theorem divRoundUp_eq (T : IntType) (a b : Int) (ha : 0 ≤ a) (hb : 1 ≤ b)
    (hTb : T.inRange b) (hsum : T.inRange (a + (b - 1))) :
    divRoundUp T a b = (a + b - 1) / b := by
  have hbits := T.bits_pos b hb hTb
  have hmin := T.minVal_nonpos
  have h1 : T.inRange 1 := ⟨by omega, le_trans hb hTb.2⟩
  have hb1 : T.inRange (b - 1) := ⟨by omega, by have := hTb.2; omega⟩
  have hq0 : 0 ≤ (a + b - 1) / b := Int.ediv_nonneg (by omega) (by omega)
  have hqle : (a + b - 1) / b ≤ a + b - 1 := Int.ediv_le_self _ (by omega)
  have hq : T.inRange ((a + b - 1) / b) := ⟨by omega, by have := hsum.2; omega⟩
  unfold divRoundUp
  simp only
  rw [T.wrap_eq hbits 1 h1,
    T.promote.wrap_eq (T.promote_bits_pos hbits) (b - 1) (T.inRange_promote _ (by omega) hb1),
    T.promote.wrap_eq (T.promote_bits_pos hbits) (a + (b - 1))
      (T.inRange_promote _ (by omega) hsum),
    Int.tdiv_eq_ediv (by omega) (by omega)]
  have e : a + (b - 1) = a + b - 1 := by ring
  rw [e]
  exact T.wrap_eq hbits _ hq

/-- C8: for every integer type `T` and all `a ≥ 0`, `b ≥ 1` of that type such
that `a + (b - 1)` does not overflow `T`, `divRoundUp a b` is the ceiling of
`a / b`: the least `q` with `q * b ≥ a`; moreover `(q - 1) * b < a` when
`a > 0`, and `divRoundUp 0 b = 0`. -/
theorem divRoundUp_ceil (T : IntType) (a b : Int) (ha : 0 ≤ a) (hb : 1 ≤ b)
    (_hTa : T.inRange a) (hTb : T.inRange b) (hsum : T.inRange (a + (b - 1))) :
    a ≤ divRoundUp T a b * b ∧
    (∀ q : Int, a ≤ q * b → divRoundUp T a b ≤ q) ∧
    (0 < a → (divRoundUp T a b - 1) * b < a) ∧
    divRoundUp T 0 b = 0 ∧
    divRoundUp T a b = ⌈(a : ℚ) / (b : ℚ)⌉ := by
  have hbpos : 0 < b := by omega
  have hmin := T.minVal_nonpos
  have hz : divRoundUp T 0 b = 0 := by
    rw [divRoundUp_eq T 0 b (le_refl 0) hb hTb ⟨by omega, by have := hTb.2; omega⟩]
    exact Int.ediv_eq_zero_of_lt (by omega) (by omega)
  rw [divRoundUp_eq T a b ha hb hTb hsum]
  have hdm := Int.ediv_add_emod (a + b - 1) b
  have hm0 := Int.emod_nonneg (a + b - 1) (by omega : b ≠ 0)
  have hm1 := Int.emod_lt_of_pos (a + b - 1) hbpos
  have hcomm : b * ((a + b - 1) / b) = (a + b - 1) / b * b := mul_comm _ _
  have hge : a ≤ (a + b - 1) / b * b := by omega
  have hlt : ((a + b - 1) / b - 1) * b < a := by
    rw [sub_mul, one_mul]
    omega
  refine ⟨hge, ?_, fun _ => hlt, hz, ?_⟩
  · intro q hq
    by_contra hcon
    have h1 : q + 1 ≤ (a + b - 1) / b := by omega
    have h2 : (q + 1) * b ≤ (a + b - 1) / b * b :=
      Int.mul_le_mul_of_nonneg_right h1 (by omega)
    rw [add_mul, one_mul] at h2
    omega
  · symm
    rw [Int.ceil_eq_iff]
    have hbq : (0 : ℚ) < (b : ℚ) := by exact_mod_cast hbpos
    constructor
    · rw [lt_div_iff₀ hbq]
      have : (((a + b - 1) / b - 1) * b : Int) < a := hlt
      exact_mod_cast this
    · rw [div_le_iff₀ hbq]
      exact_mod_cast hge

/-- Witness for C8: `divRoundUp<int>(7, 2) = 4`. -/
theorem divRoundUp_ceil_witness :
    divRoundUp ⟨true, 32⟩ 7 2 = 4 ∧ (7 : Int) ≤ divRoundUp ⟨true, 32⟩ 7 2 * 2 :=
  ⟨by decide,
   (divRoundUp_ceil ⟨true, 32⟩ 7 2 (by decide) (by decide) (by decide) (by decide)
     (by decide)).1⟩

end ospray

namespace ospray

/-! ## Assertion macros -/

/-- C6: in a development build `Assert` and `Assert2` call `doAssertion` exactly
once when the condition is false, with the file, the line, the text of the
expression and the explanation (`NULL` for `Assert`), and not at all when it is
true; in a release build `Assert`, `Assert2` and `AssertError` never call it. -/
theorem assert_macros (file : String) (line : Int) (text expl errMsg : String)
    (cond : Bool) :
    Assert Build.development file line text false = [⟨file, line, text, none⟩] ∧
    Assert2 Build.development file line text false expl = [⟨file, line, text, some expl⟩] ∧
    Assert Build.development file line text true = [] ∧
    Assert2 Build.development file line text true expl = [] ∧
    (Assert Build.development file line text cond).length = (if cond then 0 else 1) ∧
    (Assert2 Build.development file line text cond expl).length = (if cond then 0 else 1) ∧
    Assert Build.release file line text cond = [] ∧
    Assert2 Build.release file line text cond expl = [] ∧
    AssertError Build.release file line errMsg = [] := by
  refine ⟨rfl, rfl, rfl, rfl, ?_, ?_, rfl, rfl, rfl⟩ <;> cases cond <;> rfl

/-! ## `removeArgs` -/

theorem shiftArgs_length (h : Nat) : ∀ (k i : Nat) (av : List String),
    (shiftArgs h k i av).length = av.length
  | 0, _, _ => rfl
  | k + 1, i, av => by
    rw [shiftArgs, shiftArgs_length h k, List.length_set]

/-- Effect of the shifting loop on every slot of the array. -/
theorem shiftArgs_getElem? (h : Nat) : ∀ (k i : Nat) (av : List String),
    h ≤ i → i + k ≤ av.length → ∀ j : Nat,
    (shiftArgs h k i av)[j]? =
      if i - h ≤ j ∧ j < i - h + k then av[j + h]? else av[j]?
  | 0, i, av, _, _, j => by
    have : ¬ (i - h ≤ j ∧ j < i - h + 0) := by omega
    rw [if_neg this]
    rfl
  | k + 1, i, av, hi, hk, j => by
    have hlen : i + k ≤ (av.set (i - h) (av.getD i "")).length := by
      rw [List.length_set]; omega
    have hiv : i < av.length := by omega
    have hget : some (av.getD i "") = av[i]? := by
      rw [List.getD_eq_getElem?_getD, List.getElem?_eq_getElem hiv]
      rfl
    rw [shiftArgs, shiftArgs_getElem? h k (i + 1) _ (by omega) (by rw [List.length_set]; omega) j]
    rw [List.getElem?_set, List.getElem?_set]
    by_cases hj : j = i - h
    · have c1 : ¬ (i + 1 - h ≤ j ∧ j < i + 1 - h + k) := by omega
      have c2 : i - h ≤ j ∧ j < i - h + (k + 1) := by omega
      have c3 : i - h < av.length := by omega
      have c4 : j + h = i := by omega
      rw [if_neg c1, if_pos c2, if_pos hj.symm, if_pos c3, hget, c4]
    · have c0 : ¬ (i - h = j) := fun e => hj e.symm
      rw [if_neg c0]
      by_cases hc : i + 1 - h ≤ j ∧ j < i + 1 - h + k
      · have c2 : i - h ≤ j ∧ j < i - h + (k + 1) := by omega
        have c5 : ¬ (i - h = j + h) := by omega
        rw [if_pos hc, if_pos c2, if_neg c5]
      · have c2 : ¬ (i - h ≤ j ∧ j < i - h + (k + 1)) := by omega
        rw [if_neg hc, if_neg c2]

/-- The argument list after `removeArgs`, for natural-number arguments and an
array that may be longer than the count. -/
theorem argList_removeArgs (av : List String) (n w h : Nat) (hn : n ≤ av.length)
    (hwh : w + h ≤ n) :
    argList (removeArgs (n : Int) av (w : Int) (h : Int)) =
      av.take w ++ (av.take n).drop (w + h) := by
  have e1 : ((n : Int) - (h : Int)).toNat = n - h := by omega
  have e2 : ((n : Int) - ((w : Int) + (h : Int))).toNat = n - (w + h) := by
    omega
  have e3 : ((w : Int) + (h : Int)).toNat = w + h := by omega
  have e4 : (h : Int).toNat = h := by omega
  unfold argList removeArgs
  simp only [e1, e2, e3, e4]
  apply List.ext_getElem?
  intro j
  rw [List.getElem?_take, List.getElem?_append, List.getElem?_take, List.getElem?_drop,
    List.getElem?_take,
    shiftArgs_getElem? h _ _ av (by omega) (by omega) j, List.length_take]
  have hmin : min w av.length = w := by omega
  rw [hmin]
  by_cases hj : j < w
  · have c1 : j < n - h := by omega
    have c2 : ¬ (w + h - h ≤ j ∧ j < w + h - h + (n - (w + h))) := by omega
    rw [if_pos c1, if_neg c2, if_pos hj, if_pos hj]
  · rw [if_neg hj]
    by_cases hl : j < n - h
    · have c2 : w + h - h ≤ j ∧ j < w + h - h + (n - (w + h)) := by omega
      have c3 : w + h + (j - w) = j + h := by omega
      have c4 : j + h < n := by omega
      rw [if_pos hl, if_pos c2, c3, if_pos c4]
    · have c3 : ¬ (w + h + (j - w) < n) := by omega
      rw [if_neg hl, if_neg c3]

/-- C4: for an argument list of length `argCount` and `0 ≤ where`,
`0 ≤ howMany`, `where + howMany ≤ argCount`, `removeArgs` leaves the count
`argCount - howMany` and the list equal to the original with exactly the entries
at `[where, where + howMany)` deleted: entries before `where` are unchanged and
entry `i ≥ where` of the result is the original entry `i + howMany`. -/
theorem removeArgs_spec (ac : Int) (av : List String) (wh howMany : Int)
    (hlen : (av.length : Int) = ac) (hw : 0 ≤ wh) (hh : 0 ≤ howMany)
    (hsum : wh + howMany ≤ ac) :
    (removeArgs ac av wh howMany).1 = ac - howMany ∧
    argList (removeArgs ac av wh howMany) =
      av.take wh.toNat ++ av.drop (wh + howMany).toNat ∧
    ((argList (removeArgs ac av wh howMany)).length : Int) = ac - howMany ∧
    (∀ i : Nat, (i : Int) < wh → (argList (removeArgs ac av wh howMany))[i]? = av[i]?) ∧
    (∀ i : Nat, wh ≤ (i : Int) → (i : Int) < ac - howMany →
      (argList (removeArgs ac av wh howMany))[i]? = av[i + howMany.toNat]?) := by
  obtain ⟨w, rfl⟩ := Int.eq_ofNat_of_zero_le hw
  obtain ⟨h, rfl⟩ := Int.eq_ofNat_of_zero_le hh
  subst hlen
  have hwh : w + h ≤ av.length := by omega
  have e3 : ((w : Int) + (h : Int)).toNat = w + h := by omega
  have key := argList_removeArgs av av.length w h (le_refl _) hwh
  rw [List.take_length] at key
  rw [key, e3, Int.toNat_ofNat, Int.toNat_ofNat]
  refine ⟨rfl, rfl, ?_, ?_, ?_⟩
  · rw [List.length_append, List.length_take, List.length_drop]
    omega
  · intro i hi
    have hi2 : i < w := by omega
    rw [List.getElem?_append, List.length_take, List.getElem?_take]
    have hmin : min w av.length = w := by omega
    rw [hmin, if_pos hi2, if_pos hi2]
  · intro i hi1 hi2
    have hi3 : ¬ i < w := by omega
    rw [List.getElem?_append, List.length_take, List.getElem?_drop]
    have hmin : min w av.length = w := by omega
    have c3 : w + h + (i - w) = i + h := by omega
    rw [hmin, if_neg hi3, c3]

/-- Witness for C4: removing two entries at index `1` of a five-entry list. -/
theorem removeArgs_spec_witness :
    removeArgs 5 ["a", "b", "c", "d", "e"] 1 2 = (3, ["a", "d", "e", "d", "e"]) ∧
    argList (removeArgs 5 ["a", "b", "c", "d", "e"] 1 2) = ["a", "d", "e"] :=
  ⟨by decide,
   (removeArgs_spec 5 ["a", "b", "c", "d", "e"] 1 2 (by decide) (by decide) (by decide)
     (by decide)).2.1⟩

end ospray

namespace ospray

/-! ## `init` -/

theorem removeArgs_snd_length (ac : Int) (av : List String) (w h : Int) :
    (removeArgs ac av w h).2.length = av.length :=
  shiftArgs_length _ _ _ _

/-- The array after `removeArgs` at the scan position: the part before the
position is untouched and the part still to be scanned has lost its first
`h` entries. -/
theorem removeArgs_scan (av : List String) (n i h : Nat) (hn : n ≤ av.length)
    (hih : i + h ≤ n) :
    (removeArgs (n : Int) av (i : Int) (h : Int)).1 = ((n - h : Nat) : Int) ∧
    (removeArgs (n : Int) av (i : Int) (h : Int)).2.take i = av.take i ∧
    ((removeArgs (n : Int) av (i : Int) (h : Int)).2.take (n - h)).drop i =
      (av.take n).drop (i + h) := by
  have key := argList_removeArgs av n i h hn hih
  have e1 : ((n : Int) - (h : Int)).toNat = n - h := by omega
  have hfst : (removeArgs (n : Int) av (i : Int) (h : Int)).1 = ((n - h : Nat) : Int) := by
    show (n : Int) - (h : Int) = _
    omega
  unfold argList at key
  rw [hfst, Int.toNat_ofNat] at key
  have hli : (av.take i).length = i := by
    rw [List.length_take]; omega
  refine ⟨hfst, ?_, ?_⟩
  · have h1 : (removeArgs (n : Int) av (i : Int) (h : Int)).2.take i =
        ((removeArgs (n : Int) av (i : Int) (h : Int)).2.take (n - h)).take i := by
      rw [List.take_take]
      congr 1
      omega
    rw [h1, key, List.take_left' hli]
  · rw [key, List.drop_left' hli]

theorem initSpec_cons (cfg : Config) (a : String) (rest : List String) :
    initSpec cfg (a :: rest) =
      if a = "--osp:debug" then initSpec { cfg with debugMode := true } rest
      else if a = "--osp:loglevel" then
        match rest with
        | [] => none
        | v :: rest2 =>
          match parseValue v with
          | some n => initSpec { cfg with logLevel := n } rest2
          | none => none
      else if a = "--osp:numthreads" then
        match rest with
        | [] => none
        | v :: rest2 =>
          match parseValue v with
          | some n => initSpec { cfg with numThreads := (n : Int) } rest2
          | none => none
      else keep [a] (initSpec cfg rest) := by
  cases rest <;> simp only [initSpec]

/-- The scanning loop refines the list recursion `initSpec`: started at
position `i` of an array holding `n` arguments it returns what `initSpec`
returns on the arguments from `i` on, with the first `i` arguments kept. -/
theorem initLoop_spec : ∀ (fuel : Nat) (cfg : Config) (n : Nat) (av : List String) (i : Nat),
    n ≤ av.length → i ≤ n → n - i < fuel →
    finish (initLoop fuel cfg (n : Int) av i) =
      keep (av.take i) (initSpec cfg ((av.take n).drop i))
  | 0, _, _, _, _, _, _, hf => by omega
  | fuel + 1, cfg, n, av, i, hn, hi, hf => by
    rw [initLoop]
    by_cases hdone : (n : Int) ≤ (i : Int)
    · have hin : i = n := by omega
      subst hin
      have hnil : (av.take i).drop i = [] :=
        List.drop_eq_nil_of_le (List.length_take_le _ _)
      rw [if_pos hdone, hnil]
      simp [finish, keep, initSpec, argList]
    · rw [if_neg hdone]
      have hlt : i < n := by omega
      have hiv : i < av.length := by omega
      have hgetD : av.getD i "" = av[i] := by
        rw [List.getD_eq_getElem?_getD, List.getElem?_eq_getElem hiv]
        rfl
      have hcons : (av.take n).drop i = av[i] :: (av.take n).drop (i + 1) := by
        have hl : i < (av.take n).length := by
          rw [List.length_take]; omega
        rw [List.drop_eq_getElem_cons hl, List.getElem_take]
      -- what the list recursion sees when a value is expected
      have hval : (i : Int) + 1 < (n : Int) →
          av.getD (i + 1) "" = av[i + 1]?.getD "" ∧
          (av.take n).drop (i + 1) = av.getD (i + 1) "" :: (av.take n).drop (i + 2) := by
        intro h2
        have h3 : i + 1 < av.length := by omega
        have hl : i + 1 < (av.take n).length := by
          rw [List.length_take]; omega
        refine ⟨List.getD_eq_getElem?_getD _ _ _, ?_⟩
        rw [List.drop_eq_getElem_cons hl, List.getElem_take, List.getD_eq_getElem?_getD,
          List.getElem?_eq_getElem h3]
        rfl
      have hnone : ¬ ((i : Int) + 1 < (n : Int)) → (av.take n).drop (i + 1) = [] := by
        intro h2
        apply List.drop_eq_nil_of_le
        rw [List.length_take]
        omega
      simp only [hgetD]
      rw [hcons, initSpec_cons]
      by_cases hd : av[i] = "--osp:debug"
      · rw [if_pos hd, if_pos hd]
        obtain ⟨r1, r2, r3⟩ := removeArgs_scan av n i 1 hn (by omega)
        have e1 : ((1 : Nat) : Int) = 1 := rfl
        rw [e1] at r1 r2 r3
        rw [r1, initLoop_spec fuel _ (n - 1) _ i
          (by rw [removeArgs_snd_length]; omega) (by omega) (by omega), r2, r3]
      · rw [if_neg hd, if_neg hd]
        by_cases hl : av[i] = "--osp:loglevel"
        · rw [if_pos hl, if_pos hl]
          by_cases h2 : (i : Int) + 1 < (n : Int)
          · rw [if_pos h2, (hval h2).2]
            simp only
            cases hp : parseValue (av.getD (i + 1) "") with
            | none => simp [finish, keep]
            | some v =>
              simp only
              obtain ⟨r1, r2, r3⟩ := removeArgs_scan av n i 2 hn (by omega)
              have e2 : ((2 : Nat) : Int) = 2 := rfl
              rw [e2] at r1 r2 r3
              rw [r1, initLoop_spec fuel _ (n - 2) _ i
                (by rw [removeArgs_snd_length]; omega) (by omega) (by omega), r2, r3]
          · rw [if_neg h2, hnone h2]
            simp [finish, keep]
        · rw [if_neg hl, if_neg hl]
          by_cases ht : av[i] = "--osp:numthreads"
          · rw [if_pos ht, if_pos ht]
            by_cases h2 : (i : Int) + 1 < (n : Int)
            · rw [if_pos h2, (hval h2).2]
              simp only
              cases hp : parseValue (av.getD (i + 1) "") with
              | none => simp [finish, keep]
              | some v =>
                simp only
                obtain ⟨r1, r2, r3⟩ := removeArgs_scan av n i 2 hn (by omega)
                have e2 : ((2 : Nat) : Int) = 2 := rfl
                rw [e2] at r1 r2 r3
                rw [r1, initLoop_spec fuel _ (n - 2) _ i
                  (by rw [removeArgs_snd_length]; omega) (by omega) (by omega), r2, r3]
            · rw [if_neg h2, hnone h2]
              simp [finish, keep]
          · rw [if_neg ht, if_neg ht]
            rw [initLoop_spec fuel cfg n av (i + 1) hn (by omega) (by omega)]
            have htake : av.take (i + 1) = av.take i ++ [av[i]] := by
              rw [List.take_succ, List.getElem?_eq_getElem hiv]
              rfl
            rw [htake]
            cases initSpec cfg ((av.take n).drop (i + 1)) with
            | none => rfl
            | some p =>
              simp only [keep, Option.map_some', List.append_assoc, List.cons_append,
                List.nil_append]

end ospray

namespace ospray

/-- What a successful run of the list recursion guarantees: the arguments left
are a subsequence of the original ones, none of them is a recognized flag, and
debug mode is on whenever it was on before or `--osp:debug` occurs. -/
theorem initSpec_props : ∀ (k : Nat) (args : List String) (cfg c : Config) (r : List String),
    args.length ≤ k → initSpec cfg args = some (c, r) →
    r.Sublist args ∧ (∀ a ∈ r, a ∉ recognized) ∧
    ((cfg.debugMode = true ∨ "--osp:debug" ∈ args) → c.debugMode = true)
  | _, [], cfg, c, r, _, h => by
    simp only [initSpec, Option.some.injEq, Prod.mk.injEq] at h
    obtain ⟨rfl, rfl⟩ := h
    simp
  | 0, a :: rest, _, _, _, hk, _ => by simp at hk
  | k + 1, a :: rest, cfg, c, r, hk, h => by
    have hk1 : rest.length ≤ k := by simpa using hk
    rw [initSpec_cons] at h
    by_cases hd : a = "--osp:debug"
    · rw [if_pos hd] at h
      obtain ⟨p1, p2, p3⟩ := initSpec_props k rest _ c r hk1 h
      exact ⟨p1.cons a, p2, fun _ => p3 (Or.inl rfl)⟩
    · rw [if_neg hd] at h
      by_cases hl : a = "--osp:loglevel"
      · rw [if_pos hl] at h
        cases rest with
        | nil => simp at h
        | cons v rest2 =>
          simp only at h
          cases hp : parseValue v with
          | none => simp [hp] at h
          | some m =>
            simp only [hp] at h
            have hk2 : rest2.length ≤ k := by
              simp only [List.length_cons] at hk1
              omega
            obtain ⟨p1, p2, p3⟩ := initSpec_props k rest2 _ c r hk2 h
            refine ⟨(p1.cons v).cons a, p2, ?_⟩
            intro hor
            apply p3
            rcases hor with h1 | h1
            · exact Or.inl h1
            · right
              simp only [List.mem_cons] at h1
              rcases h1 with h1 | h1 | h1
              · exact absurd h1.symm hd
              · subst h1
                have hno : parseValue "--osp:debug" = none := by decide
                rw [hno] at hp
                cases hp
              · exact h1
      · rw [if_neg hl] at h
        by_cases ht : a = "--osp:numthreads"
        · rw [if_pos ht] at h
          cases rest with
          | nil => simp at h
          | cons v rest2 =>
            simp only at h
            cases hp : parseValue v with
            | none => simp [hp] at h
            | some m =>
              simp only [hp] at h
              have hk2 : rest2.length ≤ k := by
                simp only [List.length_cons] at hk1
                omega
              obtain ⟨p1, p2, p3⟩ := initSpec_props k rest2 _ c r hk2 h
              refine ⟨(p1.cons v).cons a, p2, ?_⟩
              intro hor
              apply p3
              rcases hor with h1 | h1
              · exact Or.inl h1
              · right
                simp only [List.mem_cons] at h1
                rcases h1 with h1 | h1 | h1
                · exact absurd h1.symm hd
                · subst h1
                  have hno : parseValue "--osp:debug" = none := by decide
                  rw [hno] at hp
                  cases hp
                · exact h1
        · rw [if_neg ht] at h
          cases hs : initSpec cfg rest with
          | none => simp [hs, keep] at h
          | some p =>
            obtain ⟨c1, r1⟩ := p
            simp only [hs, keep, Option.map_some', Option.some.injEq, Prod.mk.injEq,
              List.cons_append, List.nil_append] at h
            obtain ⟨rfl, rfl⟩ := h
            obtain ⟨p1, p2, p3⟩ := initSpec_props k rest cfg c1 r1 hk1 hs
            refine ⟨p1.cons₂ a, ?_, ?_⟩
            · intro x hx
              simp only [List.mem_cons] at hx
              rcases hx with rfl | hx
              · simp [recognized, hd, hl, ht]
              · exact p2 x hx
            · intro hor
              apply p3
              rcases hor with h1 | h1
              · exact Or.inl h1
              · right
                simp only [List.mem_cons] at h1
                rcases h1 with h1 | h1
                · exact absurd h1.symm hd
                · exact h1

/-- A list without recognized flags is left untouched. -/
theorem initSpec_no_flags (cfg : Config) : ∀ (args : List String),
    (∀ a ∈ args, a ∉ recognized) → initSpec cfg args = some (cfg, args)
  | [], _ => rfl
  | a :: rest, h => by
    have ha := h a (List.mem_cons_self _ _)
    simp only [recognized, List.mem_cons, List.mem_singleton, not_or, List.not_mem_nil,
      or_false] at ha
    rw [initSpec_cons, if_neg ha.2.1, if_neg ha.1, if_neg ha.2.2,
      initSpec_no_flags cfg rest (fun x hx => h x (List.mem_cons_of_mem _ hx))]
    rfl

/-- The bootstrap routine computes exactly the list recursion. -/
theorem init_eq_initSpec (cfg : Config) (args : List String) :
    init cfg args = initSpec cfg args := by
  unfold init
  have := initLoop_spec (args.length + 1) cfg args.length args 0 (le_refl _)
    (Nat.zero_le _) (by omega)
  rw [List.take_length, List.drop_zero, List.take_zero] at this
  rw [this]
  cases initSpec cfg args with
  | none => rfl
  | some p => simp [keep]

/-- C5: `init` consumes exactly the recognized flags.  On every argument list it
returns what the recursion `initSpec` describes (each recognized flag, with its
value, applied to the configuration and dropped; every other argument kept, in
order); when it succeeds the list left is a subsequence of the original without
any recognized flag, and debug mode is on if `--osp:debug` occurred; a list
without recognized flags is returned untouched; and the example of the
specification evaluates as stated. -/
theorem init_consumes_flags (cfg : Config) (args : List String) :
    init cfg args = initSpec cfg args ∧
    (∀ c r, init cfg args = some (c, r) →
      r.Sublist args ∧ (∀ a ∈ r, a ∉ recognized) ∧
      ("--osp:debug" ∈ args → c.debugMode = true)) ∧
    ((∀ a ∈ args, a ∉ recognized) → init cfg args = some (cfg, args)) ∧
    init cfg ["--osp:loglevel", "3", "--osp:debug", "--osp:numthreads", "4", "scene.xml"] =
      some (⟨3, true, 4⟩, ["scene.xml"]) := by
  refine ⟨init_eq_initSpec cfg args, ?_, ?_, ?_⟩
  · intro c r h
    rw [init_eq_initSpec] at h
    obtain ⟨p1, p2, p3⟩ := initSpec_props args.length args cfg c r (le_refl _) h
    exact ⟨p1, p2, fun hm => p3 (Or.inr hm)⟩
  · intro h
    rw [init_eq_initSpec]
    exact initSpec_no_flags cfg args h
  · rw [init_eq_initSpec]
    rfl

end ospray
